/-
Verification of the mumo-ingest append-only log store.

Shallow embedding of the Rust sources:
  * `src/files.rs`  — the two-file log store (`Index`, `State`);
  * `src/links.rs`  — the pagination builder (`Kind.apply`);
  * `src/main.rs`   — the HTTP boundary (`extract_payload`, `write_msg`).

Modelling conventions:
  * A file is a `List Nat` of its bytes; appends are list concatenation,
    positional reads are `drop`/`take`.
  * `u64` values are `Nat` with an explicit `% 2 ^ 64` wherever the machine
    arithmetic can wrap (release-profile wrapping semantics; a debug build
    would abort instead of wrapping at those points).
  * `std::mem::transmute` of `[u64; 3]` to `[u8; 24]` lays the integers out
    in host-native byte order; the encoders below take the host byte order
    as an explicit `Bool` parameter (`true` = little-endian host, the order
    used on the platforms the program is deployed on).
  * Fallible operations return `Option`; `none` is an `Err` result.
-/
import Mathlib

namespace MumoIngest

/-- The Rust `u64` modulus, `2 ^ 64`. -/
def U64 : Nat := 18446744073709551616

/-- The eight bytes of `n : u64` in little-endian order (least significant
byte first), as `std::mem::transmute` produces them on a little-endian host. -/
def u64BytesLE (n : Nat) : List Nat :=
  [n % 256, n / 256 % 256, n / 65536 % 256, n / 16777216 % 256,
   n / 4294967296 % 256, n / 1099511627776 % 256,
   n / 281474976710656 % 256, n / 72057594037927936 % 256]

/-- The eight bytes of `n : u64` in big-endian order (most significant byte
first), as `transmute` would produce them on a big-endian host. -/
def u64BytesBE (n : Nat) : List Nat := (u64BytesLE n).reverse

/-- The bytes of `n : u64` in the byte order of a host; `hostLE = true` for a
little-endian host. -/
def u64Bytes (hostLE : Bool) (n : Nat) : List Nat :=
  if hostLE then u64BytesLE n else u64BytesBE n

/-- Read a `u64` from the first eight bytes of a list, least significant byte
first (little-endian). Fewer than eight bytes decode to `0`; every use below
supplies at least eight. -/
def u64FromBytesLE : List Nat → Nat
  | b0 :: b1 :: b2 :: b3 :: b4 :: b5 :: b6 :: b7 :: _ =>
      b0 + 256 * b1 + 65536 * b2 + 16777216 * b3 + 4294967296 * b4 +
        1099511627776 * b5 + 281474976710656 * b6 + 72057594037927936 * b7
  | _ => 0

/-- Read a `u64` from the first eight bytes of a list, most significant byte
first (big-endian). -/
def u64FromBytesBE (bs : List Nat) : Nat := u64FromBytesLE (bs.take 8).reverse

/-- Read a `u64` from the first eight bytes in the byte order of a host. -/
def u64FromBytes (hostLE : Bool) (bs : List Nat) : Nat :=
  if hostLE then u64FromBytesLE bs else u64FromBytesBE bs

/-- From `files.rs`: `struct Index { start: u64, index: u64, length: u64 }` —
one 24-byte index entry: payload start offset in the data file, sequence
number, payload length. -/
structure Index where
  start : Nat
  index : Nat
  length : Nat
deriving Repr, DecidableEq

namespace Index

/-- The constant `Index::LENGTH` (= 24). -/
def LENGTH : Nat := 24

/-- The encoder `Index::to_bytes` on a host of the given byte order:
`transmute::<[u64; 3], [u8; 24]>([start, index, length])` — the three fields
in order, each as its eight bytes in host-native byte order. -/
def to_bytes_host (hostLE : Bool) (e : Index) : List Nat :=
  u64Bytes hostLE e.start ++ u64Bytes hostLE e.index ++ u64Bytes hostLE e.length

/-- The encoder `Index::to_bytes` on the little-endian hosts the program targets. -/
def to_bytes (e : Index) : List Nat := to_bytes_host true e

/-- The decoder `Index::from_bytes` on a host of the given byte order: take the first 24
bytes and `transmute` them back into three `u64`s. -/
def from_bytes_host (hostLE : Bool) (bs : List Nat) : Index :=
  { start := u64FromBytes hostLE (bs.take 8)
    index := u64FromBytes hostLE ((bs.drop 8).take 8)
    length := u64FromBytes hostLE ((bs.drop 16).take 8) }

/-- The decoder `Index::from_bytes` on the little-endian hosts the program targets. -/
def from_bytes (bs : List Nat) : Index := from_bytes_host true bs

end Index

/-- From `files.rs`: `struct Written { size: usize, index: u64 }` — the value a
successful `State::write` reports. -/
structure Written where
  size : Nat
  index : Nat
deriving Repr, DecidableEq

/-- From `files.rs`: `struct State` — the two file contents plus the in-memory
bookkeeping (`offset` = next write offset in the data file, `index` = next
sequence number). -/
structure State where
  data : List Nat
  indices : List Nat
  offset : Nat
  index : Nat
deriving Repr, DecidableEq

namespace State

/-- Recovery helper `State::get_last_index`: seek the index file to `end - 24` (an error when
the file is shorter than 24 bytes) and read the final 24-byte entry. -/
def get_last_index (index_file : List Nat) : Option Index :=
  if Index.LENGTH ≤ index_file.length then
    some (Index.from_bytes ((index_file.drop (index_file.length - Index.LENGTH)).take Index.LENGTH))
  else
    none

/-- Constructor `State::new`: open both files (contents given) and recover the counters
from the last index entry; an unreadable last entry means an empty store.
`last_index.index + 1` and `last_index.start + last_index.length` are `u64`
additions, hence the `% U64`. -/
def new (data_path indices_path : List Nat) : State :=
  match get_last_index indices_path with
  | some last_index =>
      { data := data_path, indices := indices_path
        offset := (last_index.start + last_index.length) % U64
        index := (last_index.index + 1) % U64 }
  | none =>
      { data := data_path, indices := indices_path, offset := 0, index := 0 }

/-- Accessor `State::last`: the next sequence number, i.e. one past the highest
written sequence. -/
def last (s : State) : Nat := s.index

/-- Append `State::write`, instrumented with explicit success flags for the three
fallible file operations: `dOk` for `self.data.write_all(data)`, `iOk` for
`self.indices.write_all(..)`, `fOk` for `self.flush()`. The counters are
advanced before any file operation is attempted (lines 99-100 of `files.rs`
precede the seeks and writes), so they stay advanced on every error path.
Returns the new state and `some written` on success, `none` on error. -/
def writeF (s : State) (data : List Nat) (dOk iOk fOk flush : Bool) :
    State × Option Written :=
  let e : Index := { start := s.offset, index := s.index, length := data.length % U64 }
  let off' := (s.offset + e.length) % U64
  let idx' := (s.index + 1) % U64
  if dOk then
    if iOk then
      let s' : State := { data := s.data ++ data, indices := s.indices ++ e.to_bytes
                          offset := off', index := idx' }
      if flush && !fOk then (s', none)
      else (s', some { size := data.length, index := (idx' + (U64 - 1)) % U64 })
    else ({ s with data := s.data ++ data, offset := off', index := idx' }, none)
  else ({ s with offset := off', index := idx' }, none)

/-- Append `State::write` with all file operations succeeding. -/
def write (s : State) (data : List Nat) (flush : Bool) : State × Option Written :=
  s.writeF data true true true flush

/-- Lookup `State::read`: positional read of the 24-byte entry at index-file offset
`idx * 24` (a `u64` multiplication, hence the `% U64`), then a positional
read of `length` bytes at `start` in the data file. `read_exact_at` fails
exactly when the file is too short for the requested range (a zero-length
read always succeeds). -/
def read (s : State) (idx : Nat) : Option (List Nat × Index) :=
  let pos := idx * Index.LENGTH % U64
  if pos + Index.LENGTH ≤ s.indices.length then
    let e := Index.from_bytes ((s.indices.drop pos).take Index.LENGTH)
    if e.start + e.length ≤ s.data.length then
      some ((s.data.drop e.start).take e.length, e)
    else none
  else none

/-- Dropping the `State` and reconstructing it with `State::new` over the
same two files (a process restart). -/
def restart (s : State) : State := new s.data s.indices

end State

/-- A store with both files empty, as produced by `State::new` on
freshly-created files. -/
def emptyState : State := { data := [], indices := [], offset := 0, index := 0 }

/-- One step of a store history: a successful append, or a restart. -/
inductive Op
  | push (p : List Nat)
  | restart
deriving Repr, DecidableEq

/-- Run a history of appends and restarts. -/
def exec (s : State) : List Op → State
  | [] => s
  | Op.push p :: ops => exec (s.write p true).1 ops
  | Op.restart :: ops => exec s.restart ops

/-- The payloads appended by a history, in order. -/
def payloads : List Op → List (List Nat)
  | [] => []
  | Op.push p :: ops => p :: payloads ops
  | Op.restart :: ops => payloads ops

/-- Total byte length of a list of payloads. -/
def lengthSum (ps : List (List Nat)) : Nat := (ps.map List.length).sum

/-- The index-file bytes describing payloads `ps` appended starting at data
offset `off` with first sequence number `k`: one 24-byte entry per payload. -/
def indexBytesFrom (off k : Nat) : List (List Nat) → List Nat
  | [] => []
  | p :: ps =>
      Index.to_bytes { start := off, index := k, length := p.length } ++
        indexBytesFrom (off + p.length) (k + 1) ps

/-- The store-state invariant after appending payloads `ps` from an empty
store: file contents, next write offset and next sequence number are all
determined by `ps`. -/
def Inv (s : State) (ps : List (List Nat)) : Prop :=
  s.data = ps.flatten ∧ s.indices = indexBytesFrom 0 0 ps ∧
    s.offset = lengthSum ps ∧ s.index = ps.length

/-- From `links.rs`: `enum Kind` — the four pagination link relations. -/
inductive Kind
  | prev
  | next
  | last
  | first
deriving Repr, DecidableEq

namespace Kind

/-- Link rule `Kind::apply`: the target index of a link relation given the current
index `idx` and the exclusive upper bound `max`, or `none` when the relation
is omitted. `x + 1` is a `u64` addition, hence the `% U64`; `x - 1` is only
evaluated with `x ≠ 0`, so it cannot wrap. -/
def apply (k : Kind) (idx max : Nat) : Option Nat :=
  match k, idx with
  | Kind.prev, 0 => none
  | Kind.prev, x => some (x - 1)
  | Kind.next, x => if (x + 1) % U64 < max then some ((x + 1) % U64) else none
  | Kind.last, _ => some max
  | Kind.first, _ => some 0

end Kind

/-- From `main.rs`: `MAX_SIZE`, the payload size cap in bytes. -/
def MAX_SIZE : Nat := 262144000

/-- The chunk loop of `extract_payload`: starting from the accumulated
`body`, consume the remaining chunks, rejecting (with a bad-request error,
`none`) as soon as the accumulated size would exceed `MAX_SIZE`. -/
def extractGo (body : List Nat) : List (List Nat) → Option (List Nat)
  | [] => some body
  | chunk :: rest =>
      if MAX_SIZE < body.length + chunk.length then none
      else extractGo (body ++ chunk) rest

/-- From `main.rs`: `extract_payload` — assemble the streamed request body from
its chunks, capped at `MAX_SIZE` bytes; `none` is the bad-request error. -/
def extract_payload (chunks : List (List Nat)) : Option (List Nat) :=
  extractGo [] chunks

/-- The HTTP responses `write_msg` can produce. A success response carries
the `Written` value (serialized to JSON on the wire; the serialization is
abstracted away here). -/
inductive Resp
  | ok (w : Written)
  | badRequest
  | notFound
  | internalError
deriving Repr, DecidableEq

/-- From `main.rs`: `write_msg` — extract the payload (bad request on overflow,
before the store is touched), take the store lock (`lockOk`; internal error
on failure), then `State::write` with `flush = true` (not found on a write
error, the `Written` value on success). The result records the final store
state, the response, and whether `State::write` was invoked. -/
def write_msg (lockOk dOk iOk fOk : Bool) (s : State) (chunks : List (List Nat)) :
    State × Resp × Bool :=
  match extract_payload chunks with
  | none => (s, Resp.badRequest, false)
  | some bin =>
      if lockOk then
        match s.writeF bin dOk iOk fOk true with
        | (s', some w) => (s', Resp.ok w, true)
        | (s', none) => (s', Resp.notFound, true)
      else (s, Resp.internalError, false)

/-- The index entry stored at file position `i` of the index store. -/
def entryAt (s : State) (i : Nat) : Index :=
  Index.from_bytes ((s.indices.drop (24 * i)).take 24)

/-- Modelled from the spec: the recommended pinned encoding — 24 bytes made
of three consecutive 8-byte little-endian unsigned integers `start_offset`,
`sequence`, `length`, in that order (byte `i` of a field is
`field / 256 ^ i % 256`). -/
def specEncodeLE (e : Index) : List Nat :=
  ((List.range 8).map fun i => e.start / 256 ^ i % 256) ++
    ((List.range 8).map fun i => e.index / 256 ^ i % 256) ++
    ((List.range 8).map fun i => e.length / 256 ^ i % 256)

/-! ### Byte-encoding lemmas -/

theorem u64BytesLE_length (n : Nat) : (u64BytesLE n).length = 8 := rfl

theorem u64Bytes_length (le : Bool) (n : Nat) : (u64Bytes le n).length = 8 := by
  cases le <;> simp [u64Bytes, u64BytesBE, u64BytesLE]

theorem u64FromBytesLE_u64BytesLE (n : Nat) :
    u64FromBytesLE (u64BytesLE n) = n % U64 := by
  simp only [u64BytesLE, u64FromBytesLE, U64]
  omega

theorem u64FromBytes_u64Bytes (le : Bool) (n : Nat) :
    u64FromBytes le (u64Bytes le n) = n % U64 := by
  cases le with
  | true => simpa [u64FromBytes, u64Bytes] using u64FromBytesLE_u64BytesLE n
  | false =>
      have h8 : (u64BytesLE n).reverse.length = 8 := by simp [u64BytesLE]
      simp only [u64FromBytes, u64Bytes, u64FromBytesBE, u64BytesBE, Bool.false_eq_true,
        if_false, List.take_of_length_le (le_of_eq h8), List.reverse_reverse]
      exact u64FromBytesLE_u64BytesLE n

theorem Index.to_bytes_host_length (le : Bool) (e : Index) :
    (Index.to_bytes_host le e).length = 24 := by
  simp [Index.to_bytes_host, u64Bytes_length]

theorem Index.to_bytes_length (e : Index) : (Index.to_bytes e).length = 24 :=
  Index.to_bytes_host_length true e

theorem Index.from_bytes_host_to_bytes_host (le : Bool) (e : Index) :
    Index.from_bytes_host le (Index.to_bytes_host le e) =
      { start := e.start % U64, index := e.index % U64, length := e.length % U64 } := by
  have hA := u64Bytes_length le e.start
  have hB := u64Bytes_length le e.index
  have hC := u64Bytes_length le e.length
  have htake : (Index.to_bytes_host le e).take 8 = u64Bytes le e.start := by
    rw [Index.to_bytes_host, List.append_assoc]
    exact List.take_left' hA
  have hdrop8 : (Index.to_bytes_host le e).drop 8 =
      u64Bytes le e.index ++ u64Bytes le e.length := by
    rw [Index.to_bytes_host, List.append_assoc]
    exact List.drop_left' hA
  have hdrop16 : (Index.to_bytes_host le e).drop 16 = u64Bytes le e.length := by
    rw [Index.to_bytes_host]
    exact List.drop_left' (by rw [List.length_append, hA, hB])
  rw [Index.from_bytes_host, htake, hdrop8, hdrop16, List.take_left' hB,
    List.take_of_length_le (le_of_eq hC)]
  simp [u64FromBytes_u64Bytes]

theorem Index.from_bytes_to_bytes (e : Index) :
    Index.from_bytes (Index.to_bytes e) =
      { start := e.start % U64, index := e.index % U64, length := e.length % U64 } :=
  Index.from_bytes_host_to_bytes_host true e

theorem Index.from_bytes_to_bytes_of_lt (e : Index) (h1 : e.start < U64)
    (h2 : e.index < U64) (h3 : e.length < U64) :
    Index.from_bytes (Index.to_bytes e) = e := by
  rw [Index.from_bytes_to_bytes]
  cases e with
  | mk a b c =>
      simp only [Index.mk.injEq]
      exact ⟨Nat.mod_eq_of_lt h1, Nat.mod_eq_of_lt h2, Nat.mod_eq_of_lt h3⟩

/-! ### Payload-list arithmetic -/

theorem lengthSum_nil : lengthSum [] = 0 := rfl

theorem lengthSum_cons (p : List Nat) (ps : List (List Nat)) :
    lengthSum (p :: ps) = p.length + lengthSum ps := by
  simp [lengthSum]

theorem lengthSum_append (ps qs : List (List Nat)) :
    lengthSum (ps ++ qs) = lengthSum ps + lengthSum qs := by
  simp [lengthSum]

theorem flatten_length (ps : List (List Nat)) : ps.flatten.length = lengthSum ps := by
  simp [lengthSum]

theorem lengthSum_take_succ (ps : List (List Nat)) (i : Nat) (hi : i < ps.length) :
    lengthSum (ps.take (i + 1)) = lengthSum (ps.take i) + ps[i].length := by
  induction ps generalizing i with
  | nil => simp at hi
  | cons p ps ih =>
      cases i with
      | zero =>
          simp only [List.take_succ_cons, List.take_zero, lengthSum_cons, lengthSum_nil,
            List.getElem_cons_zero]
          omega
      | succ j =>
          simp only [List.take_succ_cons, lengthSum_cons, List.getElem_cons_succ]
          rw [ih j (by simpa using hi)]
          omega

theorem lengthSum_take_le (ps : List (List Nat)) (i : Nat) :
    lengthSum (ps.take i) ≤ lengthSum ps := by
  induction ps generalizing i with
  | nil => simp [lengthSum_nil]
  | cons p ps ih =>
      cases i with
      | zero => simp [lengthSum_nil, lengthSum_cons]
      | succ j =>
          simp only [List.take_succ_cons, lengthSum_cons]
          exact Nat.add_le_add_left (ih j) _

theorem lengthSum_take_add_getElem_le (ps : List (List Nat)) (i : Nat) (hi : i < ps.length) :
    lengthSum (ps.take i) + ps[i].length ≤ lengthSum ps := by
  rw [← lengthSum_take_succ ps i hi]
  exact lengthSum_take_le ps (i + 1)

/-- Dropping past a prefix of known length over an append. -/
theorem drop_append_add {α : Type _} (l₁ l₂ : List α) (m n : Nat) (h : l₁.length = m) :
    (l₁ ++ l₂).drop (m + n) = l₂.drop n := by
  subst h
  exact List.drop_append n

/-- Extract payload `i` from the concatenated data file. -/
theorem flatten_extract (ps : List (List Nat)) (i : Nat) (hi : i < ps.length) :
    (ps.flatten.drop (lengthSum (ps.take i))).take ps[i].length = ps[i] := by
  induction ps generalizing i with
  | nil => simp at hi
  | cons p ps ih =>
      cases i with
      | zero =>
          simp only [List.take_zero, lengthSum_nil, List.flatten_cons, List.drop_zero,
            List.getElem_cons_zero]
          exact List.take_left p ps.flatten
      | succ j =>
          simp only [List.take_succ_cons, lengthSum_cons, List.flatten_cons,
            List.getElem_cons_succ]
          rw [drop_append_add p ps.flatten p.length _ rfl]
          exact ih j (by simpa using hi)

/-! ### Index-file structure lemmas -/

theorem indexBytesFrom_length (ps : List (List Nat)) (off k : Nat) :
    (indexBytesFrom off k ps).length = 24 * ps.length := by
  induction ps generalizing off k with
  | nil => simp [indexBytesFrom]
  | cons p ps ih =>
      simp only [indexBytesFrom, List.length_append, List.length_cons, ih,
        Index.to_bytes_length]
      omega

theorem indexBytesFrom_concat (ps : List (List Nat)) (p : List Nat) (off k : Nat) :
    indexBytesFrom off k (ps ++ [p]) =
      indexBytesFrom off k ps ++
        Index.to_bytes { start := off + lengthSum ps, index := k + ps.length,
                         length := p.length } := by
  induction ps generalizing off k with
  | nil => simp [indexBytesFrom, lengthSum_nil]
  | cons q ps ih =>
      simp only [List.cons_append, indexBytesFrom, List.append_eq, ih, List.append_assoc,
        lengthSum_cons, List.length_cons]
      congr 4 <;> omega

/-- The 24 bytes at index-file offset `24 * i` are the encoding of entry `i`. -/
theorem indexBytesFrom_extract (ps : List (List Nat)) (i off k : Nat) (hi : i < ps.length) :
    ((indexBytesFrom off k ps).drop (24 * i)).take 24 =
      Index.to_bytes { start := off + lengthSum (ps.take i), index := k + i,
                       length := ps[i].length } := by
  induction ps generalizing i off k with
  | nil => simp at hi
  | cons p ps ih =>
      cases i with
      | zero =>
          simp only [Nat.mul_zero, List.drop_zero, indexBytesFrom, List.take_zero,
            lengthSum_nil, Nat.add_zero, List.getElem_cons_zero]
          exact List.take_left' (Index.to_bytes_length _)
      | succ j =>
          simp only [indexBytesFrom, List.take_succ_cons, lengthSum_cons,
            List.getElem_cons_succ]
          have h24 : 24 * (j + 1) = 24 + 24 * j := by omega
          rw [h24, drop_append_add _ _ 24 (24 * j) (Index.to_bytes_length _),
            ih j (off + p.length) (k + 1) (by simpa using hi)]
          congr 2
          · omega
          · omega

/-! ### Store-state invariant lemmas -/

/-- The state component of a successful `State::write`. -/
theorem write_eq (s : State) (p : List Nat) (flush : Bool) :
    (s.write p flush).1 =
      { data := s.data ++ p
        indices := s.indices ++
          Index.to_bytes { start := s.offset, index := s.index, length := p.length % U64 }
        offset := (s.offset + p.length % U64) % U64
        index := (s.index + 1) % U64 } := by
  simp [State.write, State.writeF]

/-- A successful append extends the invariant by one payload. -/
theorem write_step (s : State) (ps : List (List Nat)) (p : List Nat) (flush : Bool)
    (h : Inv s ps) (hsum : lengthSum ps + p.length < U64) (hcnt : ps.length + 1 < U64) :
    Inv (s.write p flush).1 (ps ++ [p]) := by
  obtain ⟨hd, hix, ho, hn⟩ := h
  have hplen : p.length % U64 = p.length := Nat.mod_eq_of_lt (by omega)
  rw [write_eq]
  refine ⟨?_, ?_, ?_, ?_⟩
  · simp [hd]
  · rw [hix, ho, hn, hplen, indexBytesFrom_concat]
    simp
  · simp only [lengthSum_append, lengthSum_cons, lengthSum_nil]
    rw [ho, hplen, Nat.mod_eq_of_lt hsum]
    omega
  · simp only [List.length_append, List.length_cons, List.length_nil]
    rw [hn, Nat.mod_eq_of_lt hcnt]

/-- A restart (`State::new` over the same two files) recovers the same
offset and sequence counters from the final index entry. -/
theorem restart_step (s : State) (ps : List (List Nat))
    (h : Inv s ps) (hsum : lengthSum ps < U64) (hcnt : ps.length < U64) :
    Inv s.restart ps := by
  obtain ⟨hd, hix, ho, hn⟩ := h
  rcases Nat.eq_zero_or_pos ps.length with hz | hpos
  · have hnil : ps = [] := List.eq_nil_of_length_eq_zero hz
    subst hnil
    have hie : s.indices = [] := by simpa [indexBytesFrom] using hix
    have hres : s.restart = { data := s.data, indices := [], offset := 0, index := 0 } := by
      simp [State.restart, State.new, State.get_last_index, hie, Index.LENGTH]
    rw [hres]
    exact ⟨by simpa using hd, by simp [indexBytesFrom], by simp [lengthSum_nil], by simp⟩
  · have hlen : s.indices.length = 24 * ps.length := by rw [hix, indexBytesFrom_length]
    have hn1 : ps.length - 1 < ps.length := by omega
    have hbytes : (s.indices.drop (s.indices.length - Index.LENGTH)).take Index.LENGTH =
        Index.to_bytes { start := lengthSum (ps.take (ps.length - 1)),
                         index := ps.length - 1, length := ps[ps.length - 1].length } := by
      have h24 : s.indices.length - Index.LENGTH = 24 * (ps.length - 1) := by
        rw [hlen]; simp [Index.LENGTH]; omega
      rw [h24, hix, Index.LENGTH]
      simpa using indexBytesFrom_extract ps (ps.length - 1) 0 0 hn1
    have hglast : State.get_last_index s.indices =
        some (Index.from_bytes ((s.indices.drop (s.indices.length - Index.LENGTH)).take
          Index.LENGTH)) := by
      rw [State.get_last_index, if_pos]
      rw [hlen, Index.LENGTH]
      omega
    have hLs : lengthSum (ps.take (ps.length - 1)) < U64 :=
      Nat.lt_of_le_of_lt (lengthSum_take_le ps _) hsum
    have hLn : ps[ps.length - 1].length ≤ lengthSum ps := by
      have := lengthSum_take_add_getElem_le ps (ps.length - 1) hn1
      omega
    have htot : lengthSum (ps.take (ps.length - 1)) + ps[ps.length - 1].length =
        lengthSum ps := by
      have := lengthSum_take_succ ps (ps.length - 1) hn1
      rw [show ps.length - 1 + 1 = ps.length by omega, List.take_length] at this
      omega
    have hdec : Index.from_bytes ((s.indices.drop (s.indices.length - Index.LENGTH)).take
        Index.LENGTH) =
        { start := lengthSum (ps.take (ps.length - 1)), index := ps.length - 1,
          length := ps[ps.length - 1].length } := by
      rw [hbytes]
      exact Index.from_bytes_to_bytes_of_lt _ hLs
        (by show ps.length - 1 < U64; omega)
        (by show ps[ps.length - 1].length < U64; omega)
    have hres : s.restart =
        { data := s.data, indices := s.indices,
          offset := (lengthSum (ps.take (ps.length - 1)) + ps[ps.length - 1].length) % U64,
          index := (ps.length - 1 + 1) % U64 } := by
      simp only [State.restart, State.new, hglast, hdec]
    rw [hres]
    refine ⟨hd, hix, ?_, ?_⟩
    · rw [htot]
      exact Nat.mod_eq_of_lt hsum
    · rw [show ps.length - 1 + 1 = ps.length by omega]
      exact Nat.mod_eq_of_lt hcnt

/-- Reading a valid sequence number returns exactly the corresponding payload
and index entry. -/
theorem read_correct (s : State) (ps : List (List Nat)) (i : Nat)
    (h : Inv s ps) (hsum : lengthSum ps < U64) (hcnt : 24 * ps.length < U64)
    (hi : i < ps.length) :
    s.read i = some (ps[i],
      { start := lengthSum (ps.take i), index := i, length := ps[i].length }) := by
  obtain ⟨hd, hix, ho, hn⟩ := h
  have hlen : s.indices.length = 24 * ps.length := by rw [hix, indexBytesFrom_length]
  have hmul : i * Index.LENGTH % U64 = 24 * i := by
    rw [Index.LENGTH, Nat.mul_comm]
    exact Nat.mod_eq_of_lt (by omega)
  have hbytes : (s.indices.drop (24 * i)).take Index.LENGTH =
      Index.to_bytes { start := lengthSum (ps.take i), index := i,
                       length := ps[i].length } := by
    rw [hix, Index.LENGTH]
    simpa using indexBytesFrom_extract ps i 0 0 hi
  have hLs : lengthSum (ps.take i) < U64 := Nat.lt_of_le_of_lt (lengthSum_take_le ps _) hsum
  have hLn : lengthSum (ps.take i) + ps[i].length ≤ lengthSum ps :=
    lengthSum_take_add_getElem_le ps i hi
  have hdec : Index.from_bytes ((s.indices.drop (24 * i)).take Index.LENGTH) =
      { start := lengthSum (ps.take i), index := i, length := ps[i].length } := by
    rw [hbytes]
    exact Index.from_bytes_to_bytes_of_lt _ hLs
      (by show i < U64; omega)
      (by show ps[i].length < U64; omega)
  rw [State.read]
  simp only [hmul]
  rw [if_pos (by rw [hlen, Index.LENGTH]; omega), hdec, if_pos]
  · rw [hd]
    congr 1
    rw [flatten_extract ps i hi]
  · rw [hd, flatten_length]
    show lengthSum (ps.take i) + ps[i].length ≤ lengthSum ps
    exact hLn

/-- Running a history preserves the invariant, provided the `u64` counters
stay below their wrap point. -/
theorem exec_inv (ops : List Op) (s : State) (ps : List (List Nat))
    (h : Inv s ps)
    (hsum : lengthSum ps + lengthSum (payloads ops) < U64)
    (hcnt : 24 * (ps.length + (payloads ops).length) < U64) :
    Inv (exec s ops) (ps ++ payloads ops) := by
  induction ops generalizing s ps with
  | nil =>
      simp only [exec, payloads, List.append_nil]
      exact h
  | cons op ops ih =>
      cases op with
      | push p =>
          simp only [exec, payloads] at hsum hcnt ⊢
          rw [lengthSum_cons] at hsum
          have h1 : Inv (s.write p true).1 (ps ++ [p]) :=
            write_step s ps p true h (by omega) (by simp only [List.length_cons] at hcnt; omega)
          have h2 := ih (s.write p true).1 (ps ++ [p]) h1
            (by rw [lengthSum_append, lengthSum_cons, lengthSum_nil]; omega)
            (by simp only [List.length_append, List.length_cons, List.length_nil] at hcnt ⊢
                omega)
          simpa [List.append_assoc] using h2
      | restart =>
          simp only [exec, payloads] at hsum hcnt ⊢
          have h1 : Inv s.restart ps :=
            restart_step s ps h (by omega) (by omega)
          exact ih s.restart ps h1 hsum hcnt

/-- The invariant for a history started from an empty store. -/
theorem exec_inv_empty (ops : List Op)
    (hsum : lengthSum (payloads ops) < U64) (hcnt : 24 * (payloads ops).length < U64) :
    Inv (exec emptyState ops) (payloads ops) := by
  have h0 : Inv emptyState [] := ⟨rfl, rfl, rfl, rfl⟩
  simpa using exec_inv ops emptyState [] h0 (by simpa [lengthSum_nil]) (by simpa)

theorem payloads_map_push (ps : List (List Nat)) : payloads (ps.map Op.push) = ps := by
  induction ps with
  | nil => rfl
  | cons p ps ih => simp [payloads, ih]

theorem entryAt_eq (s : State) (ps : List (List Nat)) (i : Nat) (h : Inv s ps)
    (hsum : lengthSum ps < U64) (hcnt : 24 * ps.length < U64) (hi : i < ps.length) :
    entryAt s i = { start := lengthSum (ps.take i), index := i,
                    length := ps[i].length } := by
  obtain ⟨hd, hix, ho, hn⟩ := h
  have hbytes : (s.indices.drop (24 * i)).take 24 =
      Index.to_bytes { start := lengthSum (ps.take i), index := i,
                       length := ps[i].length } := by
    rw [hix]
    simpa using indexBytesFrom_extract ps i 0 0 hi
  have hLs : lengthSum (ps.take i) < U64 := Nat.lt_of_le_of_lt (lengthSum_take_le ps _) hsum
  have hLn : lengthSum (ps.take i) + ps[i].length ≤ lengthSum ps :=
    lengthSum_take_add_getElem_le ps i hi
  rw [entryAt, hbytes]
  exact Index.from_bytes_to_bytes_of_lt _ hLs
    (by show i < U64; omega)
    (by show ps[i].length < U64; omega)

/-- Out-of-range reads fail whenever the index-offset computation does not
overflow: the counterpart of the `u64` wraparound exhibited for claim C7. -/
theorem read_out_of_range_fails (s : State) (ps : List (List Nat)) (idx : Nat)
    (h : Inv s ps) (hidx : ps.length ≤ idx) (hup : idx * 24 + 24 ≤ U64) :
    s.read idx = none := by
  obtain ⟨hd, hix, ho, hn⟩ := h
  have hlen : s.indices.length = 24 * ps.length := by rw [hix, indexBytesFrom_length]
  have hmul : idx * Index.LENGTH % U64 = idx * 24 := by
    rw [Index.LENGTH]
    exact Nat.mod_eq_of_lt (by omega)
  rw [State.read]
  simp only [hmul]
  rw [if_neg]
  rw [hlen, Index.LENGTH]
  omega

/-- The chunk loop rejects once the total size passes the cap (the
accumulated body can never itself exceed the cap). -/
theorem extractGo_none (chunks : List (List Nat)) (body : List Nat)
    (hb : body.length ≤ MAX_SIZE) (h : MAX_SIZE < body.length + lengthSum chunks) :
    extractGo body chunks = none := by
  induction chunks generalizing body with
  | nil =>
      rw [lengthSum_nil] at h
      omega
  | cons c cs ih =>
      by_cases hc : MAX_SIZE < body.length + c.length
      · simp [extractGo, hc]
      · rw [extractGo, if_neg hc]
        refine ih (body ++ c) (by simp only [List.length_append]; omega) ?_
        rw [lengthSum_cons] at h
        simp only [List.length_append]
        omega

/-- An oversized body always fails extraction. -/
theorem extract_payload_none (chunks : List (List Nat)) (h : MAX_SIZE < lengthSum chunks) :
    extract_payload chunks = none :=
  extractGo_none chunks [] (by simp [MAX_SIZE]) (by simpa)

/-- The `index` field `State::write` reports (`self.index - 1` after the
wrapping increment) is the pre-increment sequence number modulo `2 ^ 64`. -/
theorem written_index_eq (n : Nat) : ((n + 1) % U64 + (U64 - 1)) % U64 = n % U64 := by
  rw [Nat.mod_add_mod, show n + 1 + (U64 - 1) = n + U64 by
    have : 0 < U64 := by decide
    omega, Nat.add_mod_right]

/-! ### Claims -/

/-- C1: For any sequence of N payloads appended via `State::write` starting
from an empty store — with restarts (`State::new` over the same two files)
interposed anywhere between appends — `State::read i` for every `i < N`
returns exactly the bytes of the i-th appended payload, paired with an index
entry whose sequence field equals `i`. The side conditions keep the `u64`
offset and sequence counters below their wrap point, as any physically
realizable file does. -/
theorem c1_append_read_roundtrip (ops : List Op)
    (hsum : lengthSum (payloads ops) < U64)
    (hcnt : 24 * (payloads ops).length < U64)
    (i : Nat) (hi : i < (payloads ops).length) :
    (exec emptyState ops).read i =
      some ((payloads ops)[i],
        { start := lengthSum ((payloads ops).take i), index := i,
          length := (payloads ops)[i].length }) :=
  read_correct _ _ i (exec_inv_empty ops hsum hcnt) hsum hcnt hi

/-- Witness for C1: append `[5, 6]`, restart, append `[7]`; reading sequence 1
returns `[7]` with index entry `⟨2, 1, 1⟩`. -/
theorem c1_append_read_roundtrip_witness :
    (exec emptyState [Op.push [5, 6], Op.restart, Op.push [7]]).read 1 =
      some ([7], { start := 2, index := 1, length := 1 }) := by
  rw [c1_append_read_roundtrip [Op.push [5, 6], Op.restart, Op.push [7]]
    (by decide) (by decide) 1 (by decide)]
  rfl

/-- C2: After appending payloads `ps` from an empty store, the on-disk
index entry at file position `i` has sequence `i`, start offset equal to the
sum of the lengths of payloads `0..i-1`, and length equal to payload `i`'s
length; consecutively, `start(i+1) = start(i) + length(i)` — the payload
region is contiguous. -/
theorem c2_index_entries_dense_contiguous (ps : List (List Nat))
    (hsum : lengthSum ps < U64) (hcnt : 24 * ps.length < U64)
    (i : Nat) (hi : i < ps.length) :
    (entryAt (exec emptyState (ps.map Op.push)) i).index = i ∧
    (entryAt (exec emptyState (ps.map Op.push)) i).start = lengthSum (ps.take i) ∧
    (entryAt (exec emptyState (ps.map Op.push)) i).length = ps[i].length ∧
    (i + 1 < ps.length →
      (entryAt (exec emptyState (ps.map Op.push)) (i + 1)).start =
        (entryAt (exec emptyState (ps.map Op.push)) i).start +
          (entryAt (exec emptyState (ps.map Op.push)) i).length) := by
  have hinv : Inv (exec emptyState (ps.map Op.push)) ps := by
    have := exec_inv_empty (ps.map Op.push)
    rw [payloads_map_push] at this
    exact this hsum hcnt
  have hei := entryAt_eq _ ps i hinv hsum hcnt hi
  refine ⟨by rw [hei], by rw [hei], by rw [hei], fun hj => ?_⟩
  rw [hei, entryAt_eq _ ps (i + 1) hinv hsum hcnt hj]
  exact lengthSum_take_succ ps i hi

/-- Witness for C2: payloads `[[5, 6], [7]]`, entry 1. -/
theorem c2_index_entries_dense_contiguous_witness :
    (entryAt (exec emptyState ([[5, 6], [7]].map Op.push)) 1).index = 1 ∧
    (entryAt (exec emptyState ([[5, 6], [7]].map Op.push)) 1).start = 2 := by
  have h := c2_index_entries_dense_contiguous [[5, 6], [7]] (by decide) (by decide) 1 (by decide)
  exact ⟨h.1, by rw [h.2.1]; rfl⟩

/-- C3: `State::new` recovers the store state solely from the final
24-byte entry of the index file: when that entry is unreadable (file shorter
than 24 bytes) the state initializes to offset 0, sequence 0; when the seek
and read succeed, the decoded entry `E` is the last 24 bytes of the file and
the state is set to `next_write_offset = E.start + E.length` and
`next_sequence = E.sequence + 1` (as `u64` sums, which coincide with the
mathematical sums whenever they do not overflow). -/
theorem c3_recovery (d idx : List Nat) :
    (idx.length < 24 →
      State.new d idx = { data := d, indices := idx, offset := 0, index := 0 }) ∧
    (24 ≤ idx.length →
      State.get_last_index idx =
        some (Index.from_bytes ((idx.drop (idx.length - 24)).take 24))) ∧
    (∀ E, State.get_last_index idx = some E →
      State.new d idx =
        { data := d, indices := idx,
          offset := (E.start + E.length) % U64, index := (E.index + 1) % U64 } ∧
      (E.start + E.length < U64 → (State.new d idx).offset = E.start + E.length) ∧
      (E.index + 1 < U64 → (State.new d idx).index = E.index + 1)) := by
  refine ⟨fun hshort => ?_, fun hlong => ?_, fun E hE => ?_⟩
  · rw [State.new, State.get_last_index, Index.LENGTH, if_neg (by omega)]
  · rw [State.get_last_index, Index.LENGTH, if_pos hlong]
  · have hnew : State.new d idx =
        { data := d, indices := idx,
          offset := (E.start + E.length) % U64, index := (E.index + 1) % U64 } := by
      rw [State.new, hE]
    exact ⟨hnew, fun ho => by rw [hnew]; exact Nat.mod_eq_of_lt ho,
      fun hn => by rw [hnew]; exact Nat.mod_eq_of_lt hn⟩

/-- Witness for C3: an empty index file recovers to `(0, 0)`; an index file
holding the single entry `⟨0, 0, 1⟩` recovers to offset 1, sequence 1. -/
theorem c3_recovery_witness :
    State.new [] [] = { data := [], indices := [], offset := 0, index := 0 } ∧
    State.new [5] (Index.to_bytes { start := 0, index := 0, length := 1 }) =
      { data := [5], indices := Index.to_bytes { start := 0, index := 0, length := 1 },
        offset := 1, index := 1 } := by
  constructor
  · exact (c3_recovery [] []).1 (by decide)
  · have h := ((c3_recovery [5]
      (Index.to_bytes { start := 0, index := 0, length := 1 })).2.2
      { start := 0, index := 0, length := 1 } (by decide)).1
    rw [h]
    decide

/-- C4: For every `current` and `bound` (as `u64` values, so `current + 1`
is the wrapping `u64` increment): `prev` targets `current - 1` and is omitted
exactly when `current = 0`; `next` targets `current + 1` and is omitted
exactly when `current + 1 ≥ bound`; `first` always targets 0; `last` always
targets `bound`; and the two concrete examples of the spec hold. The third
conjunct restates the `next` rule with mathematical addition under the
no-overflow hypothesis `current + 1 < 2 ^ 64`. -/
theorem c4_pagination (current bound : Nat) :
    (Kind.apply Kind.prev current bound =
      if current = 0 then none else some (current - 1)) ∧
    (Kind.apply Kind.next current bound =
      if (current + 1) % U64 < bound then some ((current + 1) % U64) else none) ∧
    (current + 1 < U64 →
      Kind.apply Kind.next current bound =
        if current + 1 < bound then some (current + 1) else none) ∧
    (Kind.apply Kind.first current bound = some 0) ∧
    (Kind.apply Kind.last current bound = some bound) ∧
    (Kind.apply Kind.prev 0 5 = none ∧ Kind.apply Kind.next 0 5 = some 1 ∧
      Kind.apply Kind.first 0 5 = some 0 ∧ Kind.apply Kind.last 0 5 = some 5) ∧
    (Kind.apply Kind.next 4 5 = none ∧ Kind.apply Kind.prev 4 5 = some 3) := by
  refine ⟨?_, rfl, fun hov => ?_, rfl, rfl, by decide, by decide⟩
  · cases current with
    | zero => rfl
    | succ x => simp [Kind.apply]
  · show (if (current + 1) % U64 < bound then some ((current + 1) % U64) else none) = _
    rw [Nat.mod_eq_of_lt hov]

/-- Witness for C4: at `current = 3`, `bound = 5` the no-overflow form of the
`next` rule gives `some 4`. -/
theorem c4_pagination_witness :
    3 + 1 < U64 ∧ Kind.apply Kind.next 3 5 = if 3 + 1 < 5 then some (3 + 1) else none :=
  ⟨by decide, (c4_pagination 3 5).2.2.1 (by decide)⟩

/-- C5: Encoding an index entry to its 24-byte on-disk form and decoding
it back recovers an identical triple, for every triple of `u64` values
(fields below `2 ^ 64`) — and this holds for the host encoding of either
byte order. -/
theorem c5_encode_decode_roundtrip (e : Index)
    (h1 : e.start < U64) (h2 : e.index < U64) (h3 : e.length < U64) :
    Index.from_bytes (Index.to_bytes e) = e ∧
    ∀ hostLE : Bool, Index.from_bytes_host hostLE (Index.to_bytes_host hostLE e) = e := by
  refine ⟨Index.from_bytes_to_bytes_of_lt e h1 h2 h3, fun hostLE => ?_⟩
  rw [Index.from_bytes_host_to_bytes_host]
  cases e with
  | mk a b c =>
      simp only [Index.mk.injEq]
      exact ⟨Nat.mod_eq_of_lt h1, Nat.mod_eq_of_lt h2, Nat.mod_eq_of_lt h3⟩

/-- Witness for C5: the round trip at the concrete entry
`⟨72057594037927936, 3, 300⟩`. -/
theorem c5_encode_decode_roundtrip_witness :
    Index.from_bytes
        (Index.to_bytes { start := 72057594037927936, index := 3, length := 300 }) =
      { start := 72057594037927936, index := 3, length := 300 } :=
  (c5_encode_decode_roundtrip _ (by decide) (by decide) (by decide)).1

/-- Counterexample for C6: the source encodes via
`std::mem::transmute`, i.e. in host-native byte order, not in a pinned byte
order — on a big-endian host the entry `⟨1, 0, 0⟩` encodes differently than
on a little-endian one, so the encoding is host-dependent. -/
theorem c6_layout_counterexample :
    Index.to_bytes_host false { start := 1, index := 0, length := 0 } ≠
      Index.to_bytes_host true { start := 1, index := 0, length := 0 } := by
  decide

/-- C6 (amended): The on-disk encoding is exactly 24 bytes: the three
`u64` fields `start_offset`, `sequence`, `length` in that order, each as
eight consecutive bytes in host-native byte order — which on the
little-endian hosts the program targets coincides with the pinned
little-endian layout the spec recommends. -/
theorem c6_layout_host_native (e : Index) :
    (Index.to_bytes e).length = 24 ∧ Index.to_bytes e = specEncodeLE e := by
  refine ⟨Index.to_bytes_length e, ?_⟩
  show Index.to_bytes_host true e = specEncodeLE e
  rw [Index.to_bytes_host, specEncodeLE]
  norm_num [u64Bytes, u64BytesLE, List.range_succ]

/-- C7 is violated by the code: on a store holding one single-byte
record, reading sequence `2 ^ 61` (which is ≥ `last_sequence() = 1`)
*succeeds* and returns record 0 — the `u64` computation
`idx * 24` wraps modulo `2 ^ 64` to file offset 0. The claim
"reading any sequence ≥ last_sequence() always fails" is therefore false of
the code as written. -/
theorem c7_overflow_read_succeeds :
    ((emptyState.write [7] true).1).last ≤ 2305843009213693952 ∧
    ((emptyState.write [7] true).1).read 2305843009213693952 =
      some ([7], { start := 0, index := 0, length := 1 }) := by
  decide

/-- The intended behaviour, which holds whenever the index-offset
computation `idx * 24` does not overflow a `u64`: reading any sequence
`≥ last_sequence()` on a store built by appends fails. -/
theorem c7_read_out_of_range_fails_without_overflow (ops : List Op) (idx : Nat)
    (hsum : lengthSum (payloads ops) < U64)
    (hcnt : 24 * (payloads ops).length < U64)
    (hidx : (exec emptyState ops).last ≤ idx)
    (hup : idx * 24 + 24 ≤ U64) :
    (exec emptyState ops).read idx = none := by
  have hinv := exec_inv_empty ops hsum hcnt
  refine read_out_of_range_fails _ (payloads ops) idx hinv ?_ hup
  have hlast : (exec emptyState ops).last = (payloads ops).length := hinv.2.2.2
  omega

/-- Witness for the no-overflow out-of-range theorem: a one-record store
rejects `read 1`. -/
theorem c7_read_out_of_range_witness :
    (exec emptyState [Op.push [7]]).read 1 = none :=
  c7_read_out_of_range_fails_without_overflow [Op.push [7]] 1
    (by decide) (by decide) (by decide) (by decide)

/-- C8: A write request whose streamed body exceeds `MAX_SIZE` bytes in
total yields a bad-request response before committing anything: the store
state (hence the length of both files) is unchanged and `State::write` is
never invoked (the invocation flag is `false`), whatever the lock and file
operations would have done. -/
theorem c8_oversized_body_rejected (lockOk dOk iOk fOk : Bool) (s : State)
    (chunks : List (List Nat)) (h : MAX_SIZE < lengthSum chunks) :
    write_msg lockOk dOk iOk fOk s chunks = (s, Resp.badRequest, false) := by
  rw [write_msg, extract_payload_none chunks h]

/-- Witness for C8: a single chunk of `MAX_SIZE + 1` zero bytes is rejected
with the store untouched. -/
theorem c8_oversized_body_rejected_witness :
    write_msg true true true true emptyState [List.replicate 262144001 0] =
      (emptyState, Resp.badRequest, false) :=
  c8_oversized_body_rejected true true true true emptyState [List.replicate 262144001 0]
    (by
      have h : lengthSum [List.replicate 262144001 0] = 262144001 := by
        rw [lengthSum, List.map_cons, List.map_nil, List.length_replicate, List.sum_cons,
          List.sum_nil]
        decide
      rw [h]
      decide)

/-- C9: With a successfully extracted payload: a failed lock acquisition
maps to an internal-error response; a store-level I/O failure of
`State::write` (any of the data write, index write or flush failing) maps to
a not-found response; and the response is a success carrying the `Written`
value (size = payload length, index = the pre-increment sequence number)
exactly when the lock and the whole durable write succeed. -/
theorem c9_response_mapping (dOk iOk fOk : Bool) (s : State)
    (chunks : List (List Nat)) (bin : List Nat)
    (hx : extract_payload chunks = some bin) :
    ((write_msg false dOk iOk fOk s chunks).2.1 = Resp.internalError) ∧
    ((write_msg true dOk iOk fOk s chunks).2.1 = Resp.notFound ↔
      ¬(dOk = true ∧ iOk = true ∧ fOk = true)) ∧
    ((∃ w, (write_msg true dOk iOk fOk s chunks).2.1 = Resp.ok w) ↔
      (dOk = true ∧ iOk = true ∧ fOk = true)) ∧
    ((write_msg true true true true s chunks).2.1 =
      Resp.ok { size := bin.length, index := s.index % U64 }) := by
  refine ⟨by rw [write_msg, hx]; rfl, ?_, ?_, ?_⟩
  · rw [write_msg, hx]
    cases dOk <;> cases iOk <;> cases fOk <;> simp [State.writeF]
  · rw [write_msg, hx]
    cases dOk <;> cases iOk <;> cases fOk <;> simp [State.writeF]
  · rw [write_msg, hx]
    simp only [State.writeF, if_true]
    simp
    rw [show s.index + 1 + (U64 - 1) = s.index + U64 by
      have h0 : 0 < U64 := by decide
      omega]
    exact Nat.add_mod_right _ _

/-- Witness for C9: on the two-byte body `[1, 2]`, a failed index write
yields not-found, and an all-success call yields the `Written` response
`{size := 2, index := 0}`. -/
theorem c9_response_mapping_witness :
    (write_msg true true false true emptyState [[1, 2]]).2.1 = Resp.notFound ∧
    (write_msg true true true true emptyState [[1, 2]]).2.1 =
      Resp.ok { size := 2, index := 0 } := by
  have h := c9_response_mapping true false true emptyState [[1, 2]] [1, 2] (by decide)
  refine ⟨h.2.1.mpr (by simp), ?_⟩
  have h4 := h.2.2.2
  rw [h4]
  rfl

/-- C10: `State::write` advances the in-memory counters before any file
I/O: in every outcome — data write failed, index write failed, flush failed
or full success — the resulting state has
`offset = (old offset + payload length) % 2^64` and
`index = (old index + 1) % 2^64`; the call returns an error exactly when
some requested file operation failed; and a subsequent successful append
records an index entry starting at the advanced offset with the advanced
sequence number, so a failed call's sequence number is skipped and its
payload region stays reserved. -/
theorem c10_counters_advance_before_io (s : State) (p q : List Nat)
    (dOk iOk fOk flush : Bool) :
    ((s.writeF p dOk iOk fOk flush).1.offset = (s.offset + p.length % U64) % U64) ∧
    ((s.writeF p dOk iOk fOk flush).1.index = (s.index + 1) % U64) ∧
    ((s.writeF p dOk iOk fOk flush).2 = none ↔
      (dOk = false ∨ iOk = false ∨ (flush = true ∧ fOk = false))) ∧
    (((s.writeF p dOk iOk fOk flush).1.write q true).1.indices =
      (s.writeF p dOk iOk fOk flush).1.indices ++
        Index.to_bytes { start := (s.offset + p.length % U64) % U64,
                         index := (s.index + 1) % U64, length := q.length % U64 }) := by
  refine ⟨?_, ?_, ?_, ?_⟩
  · cases dOk <;> cases iOk <;> cases fOk <;> cases flush <;> simp [State.writeF]
  · cases dOk <;> cases iOk <;> cases fOk <;> cases flush <;> simp [State.writeF]
  · cases dOk <;> cases iOk <;> cases fOk <;> cases flush <;> simp [State.writeF]
  · rw [write_eq]
    cases dOk <;> cases iOk <;> cases fOk <;> cases flush <;> simp [State.writeF]

end MumoIngest
